import Mathlib

/-!
Shallow embedding of the KenKen solver (src/lib/kenkenSolver.ts) and of the
puzzle data model (src/unnamed/part_000: types module).

Grids are lists of rows of natural numbers, 0 meaning unassigned; cage
targets are integers.  Array reads and writes are modelled with List.getD
and List.set (out-of-range writes are no-ops, matching in-range use by the
algorithm).  The JavaScript run-time error that occurs when the recursive
step calls the cage oracle with an undefined cage (a selected cell owned by
no cage) is modelled by the `none` result of `backtrack`; normal returns are
`some (found, state)`.  The recursion of `backtrack` is bounded by a fuel
argument; `solveKenKen` passes fuel n*n+1, which is proved sufficient below
(each recursive call fills a previously empty cell).
-/

namespace KenKen

/-- Operator of a cage, from the Op union type of the source. -/
inductive Op where
  | add
  | sub
  | mul
  | div
  | eq
deriving DecidableEq

/-- Cage record from the source: cells as 0-based (row, col) pairs, an
integer target and an operator. -/
structure Cage where
  cells : List (Nat × Nat)
  target : Int
  op : Op
deriving DecidableEq

/-- Puzzle record from the source: grid size and the cage list. -/
structure Puzzle where
  size : Nat
  cages : List Cage
deriving DecidableEq

/-- Read entry [i][j] of a two-level array, with default d: the in-range
array accesses of the source. -/
def getAt (d : α) (u : List (List α)) (i j : Nat) : α :=
  (u.getD i []).getD j d

/-- Write entry [i][j] of a two-level array. -/
def setAt (u : List (List α)) (i j : Nat) (x : α) : List (List α) :=
  u.set i ((u.getD i []).set j x)

/-- Read grid[r][c], with 0 (the unassigned marker) as the default. -/
def getCell (g : List (List Nat)) (r c : Nat) : Nat :=
  getAt 0 g r c

/-- Write grid[r][c] := v. -/
def setCell (g : List (List Nat)) (r c v : Nat) : List (List Nat) :=
  setAt g r c v

/-- Read a usage table entry rowUsed[i][v] or colUsed[i][v]. -/
def getUsed (u : List (List Bool)) (i v : Nat) : Bool :=
  getAt false u i v

/-- Write a usage table entry. -/
def setUsed (u : List (List Bool)) (i v : Nat) (b : Bool) : List (List Bool) :=
  setAt u i v b

/-- The mutable search state of one solve call: grid, rowUsed and colUsed. -/
structure SState where
  grid : List (List Nat)
  rowUsed : List (List Bool)
  colUsed : List (List Bool)
deriving DecidableEq

/-- grid[r][c] = v; rowUsed[r][v] = colUsed[c][v] = true (the placement step
shared by pre-seeding, candidate probing and the recursive step). -/
def place (r c v : Nat) (st : SState) : SState :=
  ⟨setCell st.grid r c v, setUsed st.rowUsed r v true, setUsed st.colUsed c v true⟩

/-- grid[r][c] = 0; rowUsed[r][v] = colUsed[c][v] = false (the undo step). -/
def unplace (r c v : Nat) (st : SState) : SState :=
  ⟨setCell st.grid r c 0, setUsed st.rowUsed r v false, setUsed st.colUsed c v false⟩

/-- Values of the cells of a cage under the current grid (zeros for
unassigned cells), in cage cell order. -/
def cellVals (grid : List (List Nat)) (cage : Cage) : List Nat :=
  cage.cells.map (fun rc => getCell grid rc.1 rc.2)

/-- The constraint oracle cageValidPartial of the source: decides whether a
single cage is still possibly satisfiable under the current partial grid,
and exactly satisfiable once fully assigned.  Reads past the end of the
two-value list (undefined, then NaN arithmetic, in the source) are modelled
by the match arms that return false when fewer than two values exist.
Division by the known value and by the target is exact in range, so the
float divisions of the source are modelled by divisibility plus integer
division. -/
def cageValidPartial (n : Nat) (grid : List (List Nat)) (cage : Cage) : Bool :=
  let values := cellVals grid cage
  let unassigned := values.countP (fun v => v == 0)
  let t := cage.target
  match cage.op with
  | Op.add =>
    let sum : Nat := values.foldl (· + ·) 0
    if unassigned == 0 then (sum : Int) == t
    else if t ≤ (sum : Int) then false
    else decide ((sum : Int) + unassigned ≤ t ∧ t ≤ (sum : Int) + n * unassigned)
  | Op.mul =>
    let prod : Nat := values.foldl (fun p v => if v == 0 then p else p * v) 1
    if t < (prod : Int) ∨ t % (prod : Int) != 0 then false
    else if unassigned == 0 then (prod : Int) == t
    else decide (t ≤ ((prod * n ^ unassigned : Nat) : Int))
  | Op.sub =>
    if cage.cells.length != 2 then
      if unassigned == 0 then
        match values with
        | a :: b :: _ => (((a : Int) - b).natAbs : Int) == t
        | _ => false
      else true
    else if unassigned == 2 then true
    else if unassigned == 0 then
      match values with
      | a :: b :: _ => (((a : Int) - b).natAbs : Int) == t
      | _ => false
    else
      match values.find? (fun v => v != 0) with
      | some k =>
        decide ((1 ≤ (k : Int) + t ∧ (k : Int) + t ≤ n) ∨
                (1 ≤ (k : Int) - t ∧ (k : Int) - t ≤ n))
      | none => false
  | Op.div =>
    if cage.cells.length != 2 then
      if unassigned == 0 then
        match values with
        | a :: b :: _ =>
          decide (min a b ≠ 0 ∧ ((max a b : Int) = (min a b : Int) * t))
        | _ => false
      else true
    else if unassigned == 2 then true
    else if unassigned == 0 then
      match values with
      | a :: b :: _ =>
        decide (min a b ≠ 0 ∧ ((max a b : Int) = (min a b : Int) * t))
      | _ => false
    else
      match values.find? (fun v => v != 0) with
      | some k =>
        decide ((t ≠ 0 ∧ (k : Int) % t = 0 ∧ 1 ≤ (k : Int) / t ∧ (k : Int) / t ≤ n) ∨
                (1 ≤ (k : Int) * t ∧ (k : Int) * t ≤ n))
      | none => false
  | Op.eq =>
    match values with
    | v :: _ => (v == 0) || ((v : Int) == t)
    | [] => false

/-- Cell to cage lookup built once per solve call.  The source fills a map
cage by cage, each cell keyed by its coordinates, so for a cell listed by
several cages the last registered cage wins: the lookup finds the last cage
of the list that contains the cell. -/
def cageOf (cages : List Cage) (r c : Nat) : Option Cage :=
  cages.reverse.find? (fun cg => cg.cells.contains (r, c))

/-- One iteration of the pre-seeding loop of the source: a cage with exactly
one cell is assigned its target immediately; a target outside 1..n or a row
or column conflict aborts the whole solve (`none`); any other cage leaves
the state unchanged. -/
def preseedStep (n : Nat) (cage : Cage) (st : SState) : Option SState :=
  if (cage.op == Op.eq || cage.cells.length == 1) && cage.cells.length == 1 then
    match cage.cells with
    | (r, c) :: _ =>
      let v := cage.target
      if v < 1 ∨ (n : Int) < v then none
      else if getUsed st.rowUsed r v.toNat || getUsed st.colUsed c v.toNat then none
      else some (place r c v.toNat st)
    | [] => some st
  else some st

/-- Pre-seeding loop of the source, cage by cage in list order; the abort of
any step (return null in the source) aborts the whole solve. -/
def preseedLoop (n : Nat) : List Cage → SState → Option SState
  | [], st => some st
  | cage :: rest, st =>
    match preseedStep n cage st with
    | none => none
    | some st2 => preseedLoop n rest st2

/-- Value loop of getCandidates: for each v, skip when v is used in the row
or the column, otherwise speculatively place v, ask the oracle of the owning
cage (no cage means unconstrained), undo the placement, and keep v when the
oracle accepted.  The state is threaded explicitly; the source mutates and
restores the shared state. -/
def candLoop (n : Nat) (cg : Option Cage) (r c : Nat) :
    List Nat → SState → List Nat × SState
  | [], st => ([], st)
  | v :: vs, st =>
    if getUsed st.rowUsed r v || getUsed st.colUsed c v then
      candLoop n cg r c vs st
    else
      let st1 := place r c v st
      let ok := match cg with
        | some cage => cageValidPartial n st1.grid cage
        | none => true
      let st2 := unplace r c v st1
      let rest := candLoop n cg r c vs st2
      ((if ok then v :: rest.1 else rest.1), rest.2)

/-- getCandidates of the source, over values 1..n. -/
def getCandidates (n : Nat) (cof : Nat → Nat → Option Cage) (r c : Nat)
    (st : SState) : List Nat × SState :=
  candLoop n (cof r c) r c (List.range' 1 n) st

/-- All cells of the n by n board in row-major order, the scan order of
selectNext. -/
def rowMajor (n : Nat) : List (Nat × Nat) :=
  (List.range n).flatMap (fun r => (List.range n).map (fun c => (r, c)))

/-- Scan loop of selectNext: skip assigned cells; a cell with an empty
candidate set ends the scan with no pick (dead end); a cell with exactly one
candidate is picked at once; otherwise the cell with the fewest candidates
seen so far is tracked and returned after the scan (no pick when every cell
is assigned). -/
def selectLoop (n : Nat) (cof : Nat → Nat → Option Cage) :
    List (Nat × Nat) → Option ((Nat × Nat) × List Nat) → SState →
      Option ((Nat × Nat) × List Nat) × SState
  | [], best, st => (best, st)
  | (r, c) :: rest, best, st =>
    if getCell st.grid r c ≠ 0 then
      selectLoop n cof rest best st
    else
      match getCandidates n cof r c st with
      | (cand, st2) =>
        if cand = [] then (none, st2)
        else
          match best with
          | none =>
            if cand.length = 1 then (some ((r, c), cand), st2)
            else selectLoop n cof rest (some ((r, c), cand)) st2
          | some (bcell, bchoices) =>
            if cand.length < bchoices.length then
              if cand.length = 1 then (some ((r, c), cand), st2)
              else selectLoop n cof rest (some ((r, c), cand)) st2
            else selectLoop n cof rest (some (bcell, bchoices)) st2

/-- selectNext of the source: MRV scan over all cells in row-major order. -/
def selectNext (n : Nat) (cof : Nat → Nat → Option Cage) (st : SState) :
    Option ((Nat × Nat) × List Nat) × SState :=
  selectLoop n cof (rowMajor n) none st

/-- Candidate loop of the recursive step: place each candidate value, call
the oracle of the owning cage, recurse on success of the oracle, undo on
failure of the recursion.  When the cell has no owning cage the source calls
the oracle with an undefined cage and throws; that is the `none` result. -/
def tryLoop (n : Nat) (cg : Option Cage) (r c : Nat)
    (recur : SState → Option (Bool × SState)) :
    List Nat → SState → Option (Bool × SState)
  | [], st => some (false, st)
  | v :: vs, st =>
    let st1 := place r c v st
    match cg with
    | none => none
    | some cage =>
      if cageValidPartial n st1.grid cage then
        match recur st1 with
        | none => none
        | some (true, st2) => some (true, st2)
        | some (false, st2) => tryLoop n cg r c recur vs (unplace r c v st2)
      else tryLoop n cg r c recur vs (unplace r c v st1)

/-- backtrack of the source.  When selectNext yields no pick (either no
unassigned cell, or a dead end cell with an empty candidate set) every cage
is checked with the oracle against the current grid and the verdict is
returned as found or not found; otherwise the picked candidates are tried in
order.  Fuel bounds recursion depth; exhausted fuel yields `none`. -/
def backtrack (n : Nat) (cof : Nat → Nat → Option Cage) (cages : List Cage) :
    Nat → SState → Option (Bool × SState)
  | 0, _ => none
  | fuel + 1, st =>
    match selectNext n cof st with
    | (none, st1) => some (cages.all (fun cg => cageValidPartial n st1.grid cg), st1)
    | (some ((r, c), cand), st1) =>
      tryLoop n (cof r c) r c (backtrack n cof cages fuel) cand st1

/-- Fresh board and bookkeeping structures, as built at the start of
solveKenKen: an n by n grid of zeros and n usage rows of n+1 false marks. -/
def initState (n : Nat) : SState :=
  ⟨List.replicate n (List.replicate n 0),
   List.replicate n (List.replicate (n + 1) false),
   List.replicate n (List.replicate (n + 1) false)⟩

/-- Observable outcome of one solve call: a solved grid, a no-solution
result (null in the source), or a thrown run-time error. -/
inductive SolveResult where
  | solved (g : List (List Nat))
  | noSolution
  | crash
deriving DecidableEq

/-- solveKenKen of the source: the size guard, pre-seeding of single-cell
cages, then the backtracking search from the pre-seeded state. -/
def solveKenKen (p : Puzzle) : SolveResult :=
  let n := p.size
  if n < 1 then SolveResult.noSolution
  else
    match preseedLoop n p.cages (initState n) with
    | none => SolveResult.noSolution
    | some st =>
      match backtrack n (cageOf p.cages) p.cages (n * n + 1) st with
      | none => SolveResult.crash
      | some (true, st1) => SolveResult.solved st1.grid
      | some (false, _) => SolveResult.noSolution

/-- Structural shape of the solver state: an n by n grid and two n by n+1
usage tables, as built by initState and maintained by every update. -/
def WF (n : Nat) (st : SState) : Prop :=
  st.grid.length = n ∧ (∀ row ∈ st.grid, row.length = n) ∧
  st.rowUsed.length = n ∧ (∀ row ∈ st.rowUsed, row.length = n + 1) ∧
  st.colUsed.length = n ∧ (∀ row ∈ st.colUsed, row.length = n + 1)

/-- Number of unassigned (zero) cells of a grid: the measure that shrinks at
every recursive call of backtrack. -/
def countZeros (g : List (List Nat)) : Nat :=
  (g.map (fun row => row.countP (fun v => v == 0))).sum

/-- Facts true of every pick returned by selectNext: the cell is on the
board and unassigned, and its candidate list is nonempty and holds only
values 1..n unused in the row and the column. -/
def PickP (n : Nat) (st : SState) (rc : Nat × Nat) (cand : List Nat) : Prop :=
  rc.1 < n ∧ rc.2 < n ∧ getCell st.grid rc.1 rc.2 = 0 ∧ cand ≠ [] ∧
    ∀ v ∈ cand, 1 ≤ v ∧ v ≤ n ∧
      getUsed st.rowUsed rc.1 v = false ∧ getUsed st.colUsed rc.2 v = false

/-- Modelled from the specification wording: the total of the filled cell
values of a cage (for comparison with the oracle of the source). -/
def filledSum (grid : List (List Nat)) (cage : Cage) : Int :=
  ((((cellVals grid cage).filter (fun v => !(v == 0))).sum : Nat) : Int)

/-- Modelled from the specification wording: the product of the non-zero
filled cell values of a cage (1 when no cell is filled). -/
def filledProd (grid : List (List Nat)) (cage : Cage) : Int :=
  ((((cellVals grid cage).filter (fun v => !(v == 0))).prod : Nat) : Int)

/-- Modelled from the specification wording: the count of zero (unassigned)
cells of a cage. -/
def unassignedCount (grid : List (List Nat)) (cage : Cage) : Nat :=
  (cellVals grid cage).countP (fun v => v == 0)

/-- Puzzle on which the dead-end scan result is mistaken for a complete
grid: 2 by 2, two pre-seeded single cells forcing cell (0,0) into a dead
end while the addition cage over the two remaining cells still reports
satisfiable. -/
def pzIncomplete : Puzzle :=
  ⟨2, [⟨[(0, 1)], 1, Op.eq⟩, ⟨[(1, 0)], 2, Op.eq⟩, ⟨[(0, 0), (1, 1)], 3, Op.add⟩]⟩

/-- The state of pzIncomplete right after pre-seeding: cells (0,1) and (1,0)
hold 1 and 2, cells (0,0) and (1,1) are unassigned. -/
def stIncomplete : SState :=
  ⟨[[0, 1], [2, 0]],
   [[false, true, false], [false, false, true]],
   [[false, false, true], [false, true, false]]⟩

/-- Puzzle with a cell owned by no cage that the driver selects: the
recursive step then calls the oracle with a missing cage. -/
def pzUncaged : Puzzle := ⟨2, [⟨[(0, 0)], 1, Op.eq⟩]⟩

/-- A size-1 puzzle with the one cell forced to 1. -/
def pzOne : Puzzle := ⟨1, [⟨[(0, 0)], 1, Op.eq⟩]⟩

/-- Fully covered 2 by 2 puzzle with a single-cell subtraction cage whose
target 1 is in range and pre-seeds fine, the rest solvable. -/
def pzSubSingle : Puzzle :=
  ⟨2, [⟨[(0, 0)], 1, Op.sub⟩, ⟨[(0, 1), (1, 0), (1, 1)], 5, Op.add⟩]⟩

/-- Fully covered solvable 2 by 2 puzzle: one subtraction cage per row. -/
def pzTwoRows : Puzzle :=
  ⟨2, [⟨[(0, 0), (0, 1)], 1, Op.sub⟩, ⟨[(1, 0), (1, 1)], 1, Op.sub⟩]⟩

/-- A 2 by 2 puzzle whose single-cell cage target 5 is outside 1..2. -/
def pzBadTarget : Puzzle :=
  ⟨2, [⟨[(0, 0)], 5, Op.eq⟩, ⟨[(0, 1), (1, 0), (1, 1)], 5, Op.add⟩]⟩

/-- A 2 by 2 state whose cell (0,0) is already assigned 1, with the usage
tables in sync: probing that cell with the candidate generator tries value 2
and then clears the cell to 0 instead of restoring the 1. -/
def stProbe : SState :=
  ⟨[[1, 0], [0, 0]],
   [[false, true, false], [false, false, false]],
   [[false, true, false], [false, false, false]]⟩

/-! Basic lemmas about list updates and the two-level array helpers. -/

theorem list_getD_set (l : List α) (i j : Nat) (a d : α) :
    (l.set i a).getD j d = if i = j ∧ i < l.length then a else l.getD j d := by
  rw [List.getD_eq_getElem?_getD, List.getD_eq_getElem?_getD, List.getElem?_set]
  by_cases hij : i = j
  · subst hij
    by_cases hi : i < l.length
    · simp [hi]
    · simp [hi, List.getElem?_eq_none (Nat.le_of_not_lt hi)]
  · simp [hij]

theorem list_set_of_getD (l : List α) (i : Nat) (y d : α) (h : l.getD i d = y) :
    l.set i y = l := by
  induction l generalizing i with
  | nil => rfl
  | cons a t ih =>
    cases i with
    | zero => simp only [List.getD_cons_zero] at h; simp [List.set, h]
    | succ i =>
      simp only [List.getD_cons_succ] at h
      simp [List.set, ih i h]

theorem length_setAt (u : List (List α)) (i j : Nat) (x : α) :
    (setAt u i j x).length = u.length := by
  simp [setAt]

theorem getAt_setAt_ne (d : α) (u : List (List α)) {i j i' j' : Nat} (x : α)
    (h : ¬(i = i' ∧ j = j')) : getAt d (setAt u i j x) i' j' = getAt d u i' j' := by
  unfold getAt setAt
  by_cases hii : i = i'
  · subst hii
    rw [list_getD_set]
    by_cases hi : i < u.length
    · rw [if_pos ⟨rfl, hi⟩, list_getD_set]
      have hj : ¬(j = j' ∧ j < (u.getD i []).length) := fun hj => h ⟨rfl, hj.1⟩
      rw [if_neg hj]
    · rw [if_neg (fun hc => hi hc.2)]
  · rw [list_getD_set, if_neg (fun hc => hii hc.1)]

theorem getAt_setAt_self (d : α) (u : List (List α)) {i j : Nat} (x : α)
    (hi : i < u.length) (hj : j < (u.getD i []).length) :
    getAt d (setAt u i j x) i j = x := by
  unfold getAt setAt
  rw [list_getD_set, if_pos ⟨rfl, hi⟩, list_getD_set, if_pos ⟨rfl, hj⟩]

theorem getAt_setAt_of_eq (d : α) (u : List (List α)) {i j i' j' : Nat} (x : α)
    (h : getAt d u i' j' = x) : getAt d (setAt u i j x) i' j' = x := by
  by_cases hij : i = i' ∧ j = j'
  · obtain ⟨hi, hj⟩ := hij
    subst hi; subst hj
    by_cases hlen : i < u.length ∧ j < (u.getD i []).length
    · exact getAt_setAt_self d u x hlen.1 hlen.2
    · unfold getAt setAt
      unfold getAt at h
      rw [list_getD_set]
      by_cases hi : i < u.length
      · rw [if_pos ⟨rfl, hi⟩, list_getD_set]
        have hj : ¬(j = j ∧ j < (u.getD i []).length) := fun hj => hlen ⟨hi, hj.2⟩
        rw [if_neg hj]
        exact h
      · rw [if_neg (fun hc => hi hc.2)]
        exact h
  · rw [getAt_setAt_ne d u x hij, h]

theorem setAt_setAt_cancel (d : α) (u : List (List α)) {i j : Nat} (x y : α)
    (h : getAt d u i j = y) : setAt (setAt u i j x) i j y = u := by
  unfold getAt at h
  unfold setAt
  by_cases hi : i < u.length
  · have h1 : (u.set i ((u.getD i []).set j x)).getD i [] = (u.getD i []).set j x := by
      rw [list_getD_set]; simp [hi]
    rw [h1, List.set_set, List.set_set, list_set_of_getD _ j y _ h]
    exact list_set_of_getD u i _ [] rfl
  · have hle : u.length ≤ i := Nat.le_of_not_lt hi
    rw [List.set_eq_of_length_le hle, List.set_eq_of_length_le hle]

theorem rowlen_setAt (u : List (List α)) (i j k : Nat) (x : α) :
    ((setAt u i j x).getD k []).length = (u.getD k []).length := by
  unfold setAt
  rw [list_getD_set]
  by_cases hik : i = k ∧ i < u.length
  · rw [if_pos hik, List.length_set, hik.1]
  · rw [if_neg hik]

/-! Lemmas about placements and the structural invariant. -/

theorem unplace_place (r c v : Nat) (st : SState)
    (hg : getCell st.grid r c = 0)
    (hru : getUsed st.rowUsed r v = false)
    (hcu : getUsed st.colUsed c v = false) :
    unplace r c v (place r c v st) = st := by
  cases st with
  | mk g ru cu =>
    simp only [getCell, getUsed] at hg hru hcu
    unfold place unplace setCell setUsed
    simp only [SState.mk.injEq]
    exact ⟨setAt_setAt_cancel 0 g v 0 hg,
           setAt_setAt_cancel false ru true false hru,
           setAt_setAt_cancel false cu true false hcu⟩

theorem WF_row_length {n : Nat} {st : SState} (h : WF n st) {r : Nat} (hr : r < n) :
    (st.grid.getD r []).length = n := by
  have hlen : r < st.grid.length := by rw [h.1]; exact hr
  rw [List.getD_eq_getElem?_getD, List.getElem?_eq_getElem hlen]
  exact h.2.1 _ (List.getElem_mem hlen)

theorem WF_rowUsed_length {n : Nat} {st : SState} (h : WF n st) {r : Nat} (hr : r < n) :
    (st.rowUsed.getD r []).length = n + 1 := by
  have hlen : r < st.rowUsed.length := by rw [h.2.2.1]; exact hr
  rw [List.getD_eq_getElem?_getD, List.getElem?_eq_getElem hlen]
  exact h.2.2.2.1 _ (List.getElem_mem hlen)

theorem WF_colUsed_length {n : Nat} {st : SState} (h : WF n st) {c : Nat} (hc : c < n) :
    (st.colUsed.getD c []).length = n + 1 := by
  have hlen : c < st.colUsed.length := by rw [h.2.2.2.2.1]; exact hc
  rw [List.getD_eq_getElem?_getD, List.getElem?_eq_getElem hlen]
  exact h.2.2.2.2.2 _ (List.getElem_mem hlen)

theorem rows_setAt {L : Nat} (u : List (List α)) (i j : Nat) (x : α)
    (h : ∀ row ∈ u, row.length = L) :
    ∀ row ∈ setAt u i j x, row.length = L := by
  intro row hmem
  unfold setAt at hmem
  by_cases hi : i < u.length
  · rcases List.mem_or_eq_of_mem_set hmem with h1 | h1
    · exact h row h1
    · subst h1
      rw [List.length_set, List.getD_eq_getElem?_getD, List.getElem?_eq_getElem hi]
      exact h _ (List.getElem_mem hi)
  · rw [List.set_eq_of_length_le (Nat.le_of_not_lt hi)] at hmem
    exact h row hmem

theorem WF_place {n : Nat} {st : SState} (h : WF n st) (r c v : Nat) :
    WF n (place r c v st) := by
  obtain ⟨h1, h2, h3, h4, h5, h6⟩ := h
  unfold place setCell setUsed
  refine ⟨?_, ?_, ?_, ?_, ?_, ?_⟩
  · rw [length_setAt]; exact h1
  · exact rows_setAt st.grid r c v h2
  · rw [length_setAt]; exact h3
  · exact rows_setAt st.rowUsed r v true h4
  · rw [length_setAt]; exact h5
  · exact rows_setAt st.colUsed c v true h6

theorem WF_unplace {n : Nat} {st : SState} (h : WF n st) (r c v : Nat) :
    WF n (unplace r c v st) := by
  obtain ⟨h1, h2, h3, h4, h5, h6⟩ := h
  unfold unplace setCell setUsed
  refine ⟨?_, ?_, ?_, ?_, ?_, ?_⟩
  · rw [length_setAt]; exact h1
  · exact rows_setAt st.grid r c 0 h2
  · rw [length_setAt]; exact h3
  · exact rows_setAt st.rowUsed r v false h4
  · rw [length_setAt]; exact h5
  · exact rows_setAt st.colUsed c v false h6

theorem WF_initState (n : Nat) : WF n (initState n) := by
  unfold initState WF
  refine ⟨List.length_replicate n _, ?_, List.length_replicate n _, ?_,
          List.length_replicate n _, ?_⟩ <;>
    · intro row hmem
      rw [List.eq_of_mem_replicate hmem]
      exact List.length_replicate _ _

theorem candLoop_state (n : Nat) (cg : Option Cage) (r c : Nat) :
    ∀ (vs : List Nat) (st : SState), getCell st.grid r c = 0 →
      (candLoop n cg r c vs st).2 = st := by
  intro vs
  induction vs with
  | nil => intro st _; rfl
  | cons v vs ih =>
    intro st h
    unfold candLoop
    by_cases hu : (getUsed st.rowUsed r v || getUsed st.colUsed c v) = true
    · rw [if_pos hu]
      exact ih st h
    · rw [if_neg hu]
      simp only [Bool.or_eq_true, not_or, Bool.not_eq_true] at hu
      have hst2 : unplace r c v (place r c v st) = st :=
        unplace_place r c v st h hu.1 hu.2
      simp only [hst2]
      exact ih st h

theorem candLoop_mem (n : Nat) (cg : Option Cage) (r c : Nat) :
    ∀ (vs : List Nat) (st : SState), getCell st.grid r c = 0 →
      ∀ v ∈ (candLoop n cg r c vs st).1, v ∈ vs ∧
        getUsed st.rowUsed r v = false ∧ getUsed st.colUsed c v = false := by
  intro vs
  induction vs with
  | nil =>
    intro st _ v hv
    simp only [candLoop, List.not_mem_nil] at hv
  | cons u vs ih =>
    intro st h v hv
    unfold candLoop at hv
    by_cases hu : (getUsed st.rowUsed r u || getUsed st.colUsed c u) = true
    · rw [if_pos hu] at hv
      obtain ⟨h1, h2, h3⟩ := ih st h v hv
      exact ⟨List.mem_cons_of_mem u h1, h2, h3⟩
    · rw [if_neg hu] at hv
      simp only [Bool.or_eq_true, not_or, Bool.not_eq_true] at hu
      have hst2 : unplace r c u (place r c u st) = st :=
        unplace_place r c u st h hu.1 hu.2
      simp only [hst2] at hv
      split at hv
      · rcases List.mem_cons.mp hv with rfl | hv2
        · exact ⟨List.mem_cons_self v vs, hu.1, hu.2⟩
        · obtain ⟨h1, h2, h3⟩ := ih st h v hv2
          exact ⟨List.mem_cons_of_mem u h1, h2, h3⟩
      · obtain ⟨h1, h2, h3⟩ := ih st h v hv
        exact ⟨List.mem_cons_of_mem u h1, h2, h3⟩

theorem getCandidates_state (n : Nat) (cof : Nat → Nat → Option Cage) (r c : Nat)
    (st : SState) (h : getCell st.grid r c = 0) :
    (getCandidates n cof r c st).2 = st :=
  candLoop_state n (cof r c) r c (List.range' 1 n) st h

theorem getCandidates_mem (n : Nat) (cof : Nat → Nat → Option Cage) (r c : Nat)
    (st : SState) (h : getCell st.grid r c = 0) :
    ∀ v ∈ (getCandidates n cof r c st).1, (1 ≤ v ∧ v ≤ n) ∧
      getUsed st.rowUsed r v = false ∧ getUsed st.colUsed c v = false := by
  intro v hv
  obtain ⟨h1, h2, h3⟩ := candLoop_mem n (cof r c) r c (List.range' 1 n) st h v hv
  rw [List.mem_range'_1] at h1
  exact ⟨⟨h1.1, by omega⟩, h2, h3⟩

theorem selectLoop_state (n : Nat) (cof : Nat → Nat → Option Cage) :
    ∀ (cells : List (Nat × Nat)) (best : Option ((Nat × Nat) × List Nat)) (st : SState),
      (selectLoop n cof cells best st).2 = st := by
  intro cells
  induction cells with
  | nil => intro best st; rfl
  | cons rc cells ih =>
    obtain ⟨r, c⟩ := rc
    intro best st
    unfold selectLoop
    by_cases hg : getCell st.grid r c ≠ 0
    · rw [if_pos hg]
      exact ih best st
    · rw [if_neg hg]
      push_neg at hg
      rcases hE : getCandidates n cof r c st with ⟨cand, st2⟩
      have hst2 : st2 = st := by
        have := getCandidates_state n cof r c st hg
        rw [hE] at this
        exact this
      subst hst2
      dsimp only
      by_cases hc : cand = []
      · simp [hc]
      · rw [if_neg hc]
        cases best with
        | none =>
          by_cases h1 : cand.length = 1
          · simp [h1]
          · simp only [if_neg h1]
            exact ih _ _
        | some b =>
          obtain ⟨bcell, bchoices⟩ := b
          dsimp only
          by_cases h2 : cand.length < bchoices.length
          · rw [if_pos h2]
            by_cases h1 : cand.length = 1
            · simp [h1]
            · simp only [if_neg h1]
              exact ih _ _
          · rw [if_neg h2]
            exact ih _ _



theorem mem_rowMajor {n r c : Nat} : (r, c) ∈ rowMajor n ↔ r < n ∧ c < n := by
  simp [rowMajor]

theorem selectLoop_pick (n : Nat) (cof : Nat → Nat → Option Cage) :
    ∀ (cells : List (Nat × Nat)) (best : Option ((Nat × Nat) × List Nat)) (st : SState),
      (∀ rc ∈ cells, rc.1 < n ∧ rc.2 < n) →
      (∀ rc cand, best = some (rc, cand) → PickP n st rc cand) →
      ∀ rc cand, (selectLoop n cof cells best st).1 = some (rc, cand) →
        PickP n st rc cand := by
  intro cells
  induction cells with
  | nil =>
    intro best st _ hbest rc cand hsel
    exact hbest rc cand hsel
  | cons hd cells ih =>
    obtain ⟨r, c⟩ := hd
    intro best st hcells hbest rc cand hsel
    unfold selectLoop at hsel
    by_cases hg : getCell st.grid r c ≠ 0
    · rw [if_pos hg] at hsel
      exact ih best st (fun rc2 h2 => hcells rc2 (List.mem_cons_of_mem _ h2)) hbest rc cand hsel
    · rw [if_neg hg] at hsel
      push_neg at hg
      rcases hE : getCandidates n cof r c st with ⟨cand2, st2⟩
      have hst2 : st2 = st := by
        have := getCandidates_state n cof r c st hg
        rw [hE] at this
        exact this
      subst hst2
      rw [hE] at hsel
      dsimp only at hsel
      have hmem : ∀ v ∈ cand2, (1 ≤ v ∧ v ≤ n) ∧
          getUsed st2.rowUsed r v = false ∧ getUsed st2.colUsed c v = false := by
        intro v hv
        have := getCandidates_mem n cof r c st2 hg v
        rw [hE] at this
        exact this hv
      have hrc : r < n ∧ c < n := hcells (r, c) (List.mem_cons_self _ _)
      have hnew : ∀ hne : cand2 ≠ [], PickP n st2 (r, c) cand2 := by
        intro hne
        exact ⟨hrc.1, hrc.2, hg, hne,
          fun v hv => ⟨(hmem v hv).1.1, (hmem v hv).1.2, (hmem v hv).2.1, (hmem v hv).2.2⟩⟩
      by_cases hc : cand2 = []
      · rw [if_pos hc] at hsel
        exact absurd hsel.symm (by simp)
      · rw [if_neg hc] at hsel
        cases best with
        | none =>
          by_cases h1 : cand2.length = 1
          · rw [if_pos h1] at hsel
            have : some ((r, c), cand2) = some (rc, cand) := hsel
            obtain ⟨h2, h3⟩ := Prod.mk.injEq .. ▸ (Option.some.injEq .. ▸ this)
            rw [← h2, ← h3]
            exact hnew hc
          · rw [if_neg h1] at hsel
            refine ih _ st2 (fun rc2 h2 => hcells rc2 (List.mem_cons_of_mem _ h2)) ?_ rc cand hsel
            intro rc2 cand3 hb
            obtain ⟨h2, h3⟩ := Prod.mk.injEq .. ▸ (Option.some.injEq .. ▸ hb)
            rw [← h2, ← h3]
            exact hnew hc
        | some b =>
          obtain ⟨bcell, bchoices⟩ := b
          dsimp only at hsel
          by_cases h2 : cand2.length < bchoices.length
          · rw [if_pos h2] at hsel
            by_cases h1 : cand2.length = 1
            · rw [if_pos h1] at hsel
              obtain ⟨h3, h4⟩ := Prod.mk.injEq .. ▸ (Option.some.injEq .. ▸ hsel)
              rw [← h3, ← h4]
              exact hnew hc
            · rw [if_neg h1] at hsel
              refine ih _ st2 (fun rc2 hm => hcells rc2 (List.mem_cons_of_mem _ hm)) ?_ rc cand hsel
              intro rc2 cand3 hb
              obtain ⟨h3, h4⟩ := Prod.mk.injEq .. ▸ (Option.some.injEq .. ▸ hb)
              rw [← h3, ← h4]
              exact hnew hc
          · rw [if_neg h2] at hsel
            exact ih _ st2 (fun rc2 hm => hcells rc2 (List.mem_cons_of_mem _ hm)) hbest rc cand hsel

theorem selectNext_state (n : Nat) (cof : Nat → Nat → Option Cage) (st : SState) :
    (selectNext n cof st).2 = st :=
  selectLoop_state n cof (rowMajor n) none st

theorem selectNext_pick (n : Nat) (cof : Nat → Nat → Option Cage) (st : SState)
    (rc : Nat × Nat) (cand : List Nat)
    (h : (selectNext n cof st).1 = some (rc, cand)) : PickP n st rc cand := by
  refine selectLoop_pick n cof (rowMajor n) none st ?_ ?_ rc cand h
  · intro rc2 hm
    obtain ⟨r, c⟩ := rc2
    exact mem_rowMajor.mp hm
  · intro rc2 cand2 hb
    exact absurd hb (by simp)

theorem getCell_place_ne {r c r' c' : Nat} (hne : ¬(r = r' ∧ c = c')) (v : Nat)
    (st : SState) : getCell (place r c v st).grid r' c' = getCell st.grid r' c' := by
  unfold place getCell setCell
  exact getAt_setAt_ne 0 st.grid v hne

theorem countZeros_cons (row : List Nat) (g : List (List Nat)) :
    countZeros (row :: g) = row.countP (fun x => x == 0) + countZeros g := by
  unfold countZeros
  rw [List.map_cons, List.sum_cons]

theorem countP_set_lt (row : List Nat) :
    ∀ (cc v : Nat), cc < row.length → row.getD cc 0 = 0 → v ≠ 0 →
      (row.set cc v).countP (fun x => x == 0) < row.countP (fun x => x == 0) := by
  induction row with
  | nil => intro cc v h; simp at h
  | cons a t ih =>
    intro cc v hlen hget hv
    cases cc with
    | zero =>
      simp only [List.getD_cons_zero] at hget
      subst hget
      simp only [List.set_cons_zero, List.countP_cons]
      simp [hv]
    | succ cc =>
      simp only [List.getD_cons_succ] at hget
      simp only [List.length_cons, Nat.succ_lt_succ_iff] at hlen
      simp only [List.set_cons_succ, List.countP_cons]
      have := ih cc v hlen hget hv
      omega

theorem countZeros_set_lt (g : List (List Nat)) :
    ∀ (r : Nat) (row' : List Nat), r < g.length →
      row'.countP (fun x => x == 0) < (g.getD r []).countP (fun x => x == 0) →
      countZeros (g.set r row') < countZeros g := by
  induction g with
  | nil => intro r row' h; simp at h
  | cons a t ih =>
    intro r row' hlen hcnt
    cases r with
    | zero =>
      simp only [List.getD_cons_zero] at hcnt
      simp only [List.set_cons_zero, countZeros_cons]
      omega
    | succ r =>
      simp only [List.getD_cons_succ] at hcnt
      simp only [List.length_cons, Nat.succ_lt_succ_iff] at hlen
      simp only [List.set_cons_succ, countZeros_cons]
      have := ih r row' hlen hcnt
      omega

theorem countZeros_place_lt {n : Nat} {st : SState} (h : WF n st) {r c v : Nat}
    (hr : r < n) (hc : c < n) (hg : getCell st.grid r c = 0) (hv : v ≠ 0) :
    countZeros (place r c v st).grid < countZeros st.grid := by
  unfold place setCell setAt
  simp only
  apply countZeros_set_lt
  · rw [h.1]; exact hr
  · apply countP_set_lt
    · rw [WF_row_length h hr]; exact hc
    · exact hg
    · exact hv

theorem countZeros_le {n : Nat} {st : SState} (h : WF n st) :
    countZeros st.grid ≤ n * n := by
  obtain ⟨h1, h2, _⟩ := h
  have : ∀ (g : List (List Nat)), (∀ row ∈ g, row.length = n) →
      countZeros g ≤ g.length * n := by
    intro g
    induction g with
    | nil => intro _; simp [countZeros]
    | cons a t ih =>
      intro hrows
      rw [countZeros_cons]
      have h3 : a.countP (fun x => x == 0) ≤ n := by
        have := List.countP_le_length (l := a) (fun x => x == 0)
        rw [hrows a (List.mem_cons_self _ _)] at this
        exact this
      have h4 := ih (fun row hm => hrows row (List.mem_cons_of_mem _ hm))
      simp only [List.length_cons]
      calc a.countP (fun x => x == 0) + countZeros t ≤ n + t.length * n := by omega
        _ = (t.length + 1) * n := by ring
  have := this st.grid h2
  rw [h1] at this
  exact this

theorem tryLoop_false (n : Nat) (cg : Option Cage) (r c : Nat)
    (recur : SState → Option (Bool × SState))
    (hrec : ∀ s s', recur s = some (false, s') → s' = s) :
    ∀ (vs : List Nat) (st : SState),
      getCell st.grid r c = 0 →
      (∀ v ∈ vs, getUsed st.rowUsed r v = false ∧ getUsed st.colUsed c v = false) →
      ∀ st', tryLoop n cg r c recur vs st = some (false, st') → st' = st := by
  intro vs
  induction vs with
  | nil =>
    intro st _ _ st' h
    unfold tryLoop at h
    injection h with h
    injection h with _ h
    exact h.symm
  | cons v vs ih =>
    intro st hg hvs st' h
    unfold tryLoop at h
    cases cg with
    | none => exact absurd h (by simp)
    | some cage =>
      dsimp only at h
      have hres : unplace r c v (place r c v st) = st :=
        unplace_place r c v st hg (hvs v (List.mem_cons_self _ _)).1
          (hvs v (List.mem_cons_self _ _)).2
      by_cases hok : cageValidPartial n (place r c v st).grid cage = true
      · rw [if_pos hok] at h
        cases hrecres : recur (place r c v st) with
        | none => rw [hrecres] at h; exact absurd h (by simp)
        | some bs =>
          obtain ⟨b, st2⟩ := bs
          rw [hrecres] at h
          cases b with
          | true => exact absurd h (by simp)
          | false =>
            have hst2 : st2 = place r c v st := hrec _ _ hrecres
            dsimp only at h
            rw [hst2, hres] at h
            exact ih st hg (fun w hw => hvs w (List.mem_cons_of_mem _ hw)) st' h
      · rw [if_neg hok] at h
        rw [hres] at h
        exact ih st hg (fun w hw => hvs w (List.mem_cons_of_mem _ hw)) st' h

theorem backtrack_false (n : Nat) (cof : Nat → Nat → Option Cage) (cages : List Cage) :
    ∀ (fuel : Nat) (st st' : SState),
      backtrack n cof cages fuel st = some (false, st') → st' = st := by
  intro fuel
  induction fuel with
  | zero => intro st st' h; exact absurd h (by simp [backtrack])
  | succ fuel ih =>
    intro st st' h
    unfold backtrack at h
    rcases hsel : selectNext n cof st with ⟨pick, st1⟩
    have hst1 : st1 = st := by
      have := selectNext_state n cof st
      rw [hsel] at this
      exact this
    rw [hsel] at h
    cases pick with
    | none =>
      dsimp only at h
      injection h with h
      injection h with _ h
      rw [← h, hst1]
    | some p =>
      obtain ⟨⟨r, c⟩, cand⟩ := p
      dsimp only at h
      have hpick : PickP n st (r, c) cand := by
        apply selectNext_pick n cof st (r, c) cand
        rw [hsel]
      subst hst1
      obtain ⟨_, _, hg, _, hvals⟩ := hpick
      exact tryLoop_false n (cof r c) r c _ ih cand st1 hg
        (fun v hv => ⟨(hvals v hv).2.2.1, (hvals v hv).2.2.2⟩) st' h

theorem tryLoop_some (n : Nat) (cage : Cage) (r c : Nat) {B : Nat}
    (recur : SState → Option (Bool × SState))
    (hrecSome : ∀ s, WF n s → countZeros s.grid < B → (recur s).isSome)
    (hrecFalse : ∀ s s', recur s = some (false, s') → s' = s)
    (hr : r < n) (hc : c < n) :
    ∀ (vs : List Nat) (st : SState), WF n st → countZeros st.grid ≤ B →
      getCell st.grid r c = 0 →
      (∀ v ∈ vs, 1 ≤ v ∧ getUsed st.rowUsed r v = false ∧ getUsed st.colUsed c v = false) →
      (tryLoop n (some cage) r c recur vs st).isSome := by
  intro vs
  induction vs with
  | nil => intro st _ _ _ _; simp [tryLoop]
  | cons v vs ih =>
    intro st hWF hB hg hvs
    unfold tryLoop
    dsimp only
    have hfacts := hvs v (List.mem_cons_self _ _)
    have hres : unplace r c v (place r c v st) = st :=
      unplace_place r c v st hg hfacts.2.1 hfacts.2.2
    by_cases hok : cageValidPartial n (place r c v st).grid cage = true
    · rw [if_pos hok]
      have hWF1 : WF n (place r c v st) := WF_place hWF r c v
      have hlt : countZeros (place r c v st).grid < countZeros st.grid :=
        countZeros_place_lt hWF hr hc hg (by omega)
      have hsome := hrecSome (place r c v st) hWF1 (by omega)
      cases hrecres : recur (place r c v st) with
      | none => rw [hrecres] at hsome; exact absurd hsome (by simp)
      | some bs =>
        obtain ⟨b, st2⟩ := bs
        cases b with
        | true => simp
        | false =>
          have hst2 : st2 = place r c v st := hrecFalse _ _ hrecres
          dsimp only
          rw [hst2, hres]
          exact ih st hWF hB hg (fun w hw => hvs w (List.mem_cons_of_mem _ hw))
    · rw [if_neg hok]
      rw [hres]
      exact ih st hWF hB hg (fun w hw => hvs w (List.mem_cons_of_mem _ hw))

theorem backtrack_some (n : Nat) (cof : Nat → Nat → Option Cage) (cages : List Cage)
    (hcov : ∀ r c, r < n → c < n → (cof r c).isSome) :
    ∀ (fuel : Nat) (st : SState), WF n st → countZeros st.grid < fuel →
      (backtrack n cof cages fuel st).isSome := by
  intro fuel
  induction fuel with
  | zero => intro st _ h; omega
  | succ fuel ih =>
    intro st hWF hfuel
    unfold backtrack
    rcases hsel : selectNext n cof st with ⟨pick, st1⟩
    have hst1 : st1 = st := by
      have := selectNext_state n cof st
      rw [hsel] at this
      exact this
    cases pick with
    | none => simp
    | some p =>
      obtain ⟨⟨r, c⟩, cand⟩ := p
      dsimp only
      have hpick : PickP n st (r, c) cand := by
        apply selectNext_pick n cof st (r, c) cand
        rw [hsel]
      obtain ⟨hr, hc, hg, _, hvals⟩ := hpick
      have hcg := hcov r c hr hc
      cases hcgE : cof r c with
      | none => rw [hcgE] at hcg; exact absurd hcg (by simp)
      | some cage =>
        subst hst1
        refine tryLoop_some n cage r c (backtrack n cof cages fuel)
          (fun s hW hlt => ih s hW hlt) (backtrack_false n cof cages fuel) hr hc
          cand st1 hWF (by omega) hg
          (fun v hv => ⟨(hvals v hv).1, (hvals v hv).2.2.1, (hvals v hv).2.2.2⟩)

theorem cage_invalid_of_single (n : Nat) (grid : List (List Nat)) (pc : Cage)
    (r0 c0 : Nat) (hcells : pc.cells = [(r0, c0)])
    (hop : pc.op = Op.sub ∨ pc.op = Op.div)
    (hnz : getCell grid r0 c0 ≠ 0) : cageValidPartial n grid pc = false := by
  unfold cageValidPartial cellVals
  rw [hcells]
  rcases hop with h | h <;> rw [h] <;> simp [hnz]

theorem tryLoop_netrue (n : Nat) (cg : Option Cage) (r c r0 c0 : Nat)
    (recur : SState → Option (Bool × SState))
    (hrecFalse : ∀ s s', recur s = some (false, s') → s' = s)
    (hrecNtrue : ∀ s, getCell s.grid r0 c0 ≠ 0 → ∀ s', recur s ≠ some (true, s')) :
    ∀ (vs : List Nat) (st : SState), getCell st.grid r c = 0 →
      (∀ v ∈ vs, getUsed st.rowUsed r v = false ∧ getUsed st.colUsed c v = false) →
      getCell st.grid r0 c0 ≠ 0 →
      ∀ st', tryLoop n cg r c recur vs st ≠ some (true, st') := by
  intro vs
  induction vs with
  | nil => intro st _ _ _ st' h; exact absurd h (by simp [tryLoop])
  | cons v vs ih =>
    intro st hg hvs hnz st' h
    unfold tryLoop at h
    cases cg with
    | none => exact absurd h (by simp)
    | some cage =>
      dsimp only at h
      have hfacts := hvs v (List.mem_cons_self _ _)
      have hres : unplace r c v (place r c v st) = st :=
        unplace_place r c v st hg hfacts.1 hfacts.2
      have hne : ¬(r = r0 ∧ c = c0) := by
        intro heq
        rw [heq.1, heq.2] at hg
        exact hnz hg
      have hnz1 : getCell (place r c v st).grid r0 c0 ≠ 0 := by
        rw [getCell_place_ne hne v st]
        exact hnz
      by_cases hok : cageValidPartial n (place r c v st).grid cage = true
      · rw [if_pos hok] at h
        cases hrecres : recur (place r c v st) with
        | none => rw [hrecres] at h; exact absurd h (by simp)
        | some bs =>
          obtain ⟨b, st2⟩ := bs
          rw [hrecres] at h
          cases b with
          | true => exact hrecNtrue (place r c v st) hnz1 st2 hrecres
          | false =>
            have hst2 : st2 = place r c v st := hrecFalse _ _ hrecres
            dsimp only at h
            rw [hst2, hres] at h
            exact ih st hg (fun w hw => hvs w (List.mem_cons_of_mem _ hw)) hnz st' h
      · rw [if_neg hok] at h
        rw [hres] at h
        exact ih st hg (fun w hw => hvs w (List.mem_cons_of_mem _ hw)) hnz st' h

theorem backtrack_netrue (n : Nat) (cof : Nat → Nat → Option Cage) (cages : List Cage)
    (pc : Cage) (r0 c0 : Nat) (hmem : pc ∈ cages) (hcells : pc.cells = [(r0, c0)])
    (hop : pc.op = Op.sub ∨ pc.op = Op.div) :
    ∀ (fuel : Nat) (st : SState), getCell st.grid r0 c0 ≠ 0 →
      ∀ st', backtrack n cof cages fuel st ≠ some (true, st') := by
  intro fuel
  induction fuel with
  | zero => intro st _ st' h; exact absurd h (by simp [backtrack])
  | succ fuel ih =>
    intro st hnz st' h
    unfold backtrack at h
    rcases hsel : selectNext n cof st with ⟨pick, st1⟩
    have hst1 : st1 = st := by
      have := selectNext_state n cof st
      rw [hsel] at this
      exact this
    rw [hsel] at h
    cases pick with
    | none =>
      dsimp only at h
      injection h with h
      injection h with hall _
      rw [List.all_eq_true] at hall
      have hpc := hall pc hmem
      rw [hst1, cage_invalid_of_single n st.grid pc r0 c0 hcells hop hnz] at hpc
      exact absurd hpc (by simp)
    | some p =>
      obtain ⟨⟨r, c⟩, cand⟩ := p
      dsimp only at h
      have hpick : PickP n st (r, c) cand := by
        apply selectNext_pick n cof st (r, c) cand
        rw [hsel]
      subst hst1
      obtain ⟨_, _, hg, _, hvals⟩ := hpick
      exact tryLoop_netrue n (cof r c) r c r0 c0 _
        (backtrack_false n cof cages fuel) (fun s hs s' => ih s hs s')
        cand st1 hg
        (fun v hv => ⟨(hvals v hv).2.2.1, (hvals v hv).2.2.2⟩) hnz st' h

theorem getCell_place_self {n : Nat} {st : SState} (hWF : WF n st) {r c : Nat}
    (hr : r < n) (hc : c < n) (v : Nat) :
    getCell (place r c v st).grid r c = v := by
  unfold place getCell setCell
  exact getAt_setAt_self 0 st.grid v (by rw [hWF.1]; exact hr)
    (by rw [WF_row_length hWF hr]; exact hc)

theorem preseedLoop_cons (n : Nat) (cage : Cage) (rest : List Cage) (st : SState) :
    preseedLoop n (cage :: rest) st =
      (preseedStep n cage st).bind (fun s => preseedLoop n rest s) := by
  cases h : preseedStep n cage st with
  | none => simp [preseedLoop, h]
  | some st2 => simp [preseedLoop, h]

theorem preseedLoop_append (n : Nat) :
    ∀ (l1 l2 : List Cage) (st : SState),
      preseedLoop n (l1 ++ l2) st =
        (preseedLoop n l1 st).bind (fun s => preseedLoop n l2 s) := by
  intro l1
  induction l1 with
  | nil => intro l2 st; rfl
  | cons cage l1 ih =>
    intro l2 st
    rw [List.cons_append, preseedLoop_cons, preseedLoop_cons]
    cases preseedStep n cage st with
    | none => rfl
    | some st2 =>
      simp only [Option.bind]
      exact ih l2 st2

theorem preseedStep_single (n : Nat) (cg : Cage) (r c : Nat) (st : SState)
    (hcells : cg.cells = [(r, c)]) :
    preseedStep n cg st =
      (if cg.target < 1 ∨ (n : Int) < cg.target then none
       else if getUsed st.rowUsed r cg.target.toNat ||
           getUsed st.colUsed c cg.target.toNat then none
       else some (place r c cg.target.toNat st)) := by
  unfold preseedStep
  have hcond : ((cg.op == Op.eq || cg.cells.length == 1) && cg.cells.length == 1) = true := by
    rw [hcells]; simp
  rw [if_pos hcond, hcells]

theorem preseedStep_spec (n : Nat) (cage : Cage) (st st' : SState)
    (h : preseedStep n cage st = some st') :
    st' = st ∨ ∃ r c : Nat, 1 ≤ cage.target ∧ cage.target ≤ (n : Int) ∧
      st' = place r c cage.target.toNat st := by
  unfold preseedStep at h
  by_cases hcond :
      ((cage.op == Op.eq || cage.cells.length == 1) && cage.cells.length == 1) = true
  · rw [if_pos hcond] at h
    cases hcl : cage.cells with
    | nil =>
      rw [hcl] at h
      dsimp only at h
      injection h with h
      exact Or.inl h.symm
    | cons rc rest2 =>
      obtain ⟨r, c⟩ := rc
      rw [hcl] at h
      dsimp only at h
      by_cases h1 : (cage.target < 1 ∨ (n : Int) < cage.target)
      · rw [if_pos h1] at h; exact absurd h (by simp)
      · rw [if_neg h1] at h
        by_cases h2 : (getUsed st.rowUsed r cage.target.toNat ||
            getUsed st.colUsed c cage.target.toNat) = true
        · rw [if_pos h2] at h; exact absurd h (by simp)
        · rw [if_neg h2] at h
          injection h with h
          push_neg at h1
          exact Or.inr ⟨r, c, h1.1, h1.2, h.symm⟩
  · rw [if_neg hcond] at h
    injection h with h
    exact Or.inl h.symm

theorem preseedLoop_WF (n : Nat) :
    ∀ (l : List Cage) (st st' : SState), WF n st →
      preseedLoop n l st = some st' → WF n st' := by
  intro l
  induction l with
  | nil =>
    intro st st' hWF h
    injection h with h
    rw [← h]; exact hWF
  | cons cage l ih =>
    intro st st' hWF h
    rw [preseedLoop_cons] at h
    cases hS : preseedStep n cage st with
    | none => rw [hS] at h; exact absurd h (by simp)
    | some st2 =>
      rw [hS] at h
      simp only [Option.bind] at h
      rcases preseedStep_spec n cage st st2 hS with h2 | ⟨r, c, _, _, h2⟩
      · exact ih st2 st' (h2 ▸ hWF) h
      · exact ih st2 st' (h2 ▸ WF_place hWF r c _) h

theorem preseedLoop_rowUsed_mono (n : Nat) :
    ∀ (l : List Cage) (st st' : SState) (i v : Nat),
      getUsed st.rowUsed i v = true → preseedLoop n l st = some st' →
      getUsed st'.rowUsed i v = true := by
  intro l
  induction l with
  | nil =>
    intro st st' i v hu h
    injection h with h
    rw [← h]; exact hu
  | cons cage l ih =>
    intro st st' i v hu h
    rw [preseedLoop_cons] at h
    cases hS : preseedStep n cage st with
    | none => rw [hS] at h; exact absurd h (by simp)
    | some st2 =>
      rw [hS] at h
      simp only [Option.bind] at h
      rcases preseedStep_spec n cage st st2 hS with h2 | ⟨r, c, _, _, h2⟩
      · exact ih st2 st' i v (h2 ▸ hu) h
      · refine ih st2 st' i v ?_ h
        rw [h2]
        unfold place getUsed setUsed
        exact getAt_setAt_of_eq false st.rowUsed true hu

theorem preseedLoop_colUsed_mono (n : Nat) :
    ∀ (l : List Cage) (st st' : SState) (i v : Nat),
      getUsed st.colUsed i v = true → preseedLoop n l st = some st' →
      getUsed st'.colUsed i v = true := by
  intro l
  induction l with
  | nil =>
    intro st st' i v hu h
    injection h with h
    rw [← h]; exact hu
  | cons cage l ih =>
    intro st st' i v hu h
    rw [preseedLoop_cons] at h
    cases hS : preseedStep n cage st with
    | none => rw [hS] at h; exact absurd h (by simp)
    | some st2 =>
      rw [hS] at h
      simp only [Option.bind] at h
      rcases preseedStep_spec n cage st st2 hS with h2 | ⟨r, c, _, _, h2⟩
      · exact ih st2 st' i v (h2 ▸ hu) h
      · refine ih st2 st' i v ?_ h
        rw [h2]
        unfold place getUsed setUsed
        exact getAt_setAt_of_eq false st.colUsed true hu

theorem preseedLoop_nonzero (n : Nat) {r0 c0 : Nat} (hr : r0 < n) (hc : c0 < n) :
    ∀ (l : List Cage) (st st' : SState), WF n st → getCell st.grid r0 c0 ≠ 0 →
      preseedLoop n l st = some st' → getCell st'.grid r0 c0 ≠ 0 := by
  intro l
  induction l with
  | nil =>
    intro st st' _ hnz h
    injection h with h
    rw [← h]; exact hnz
  | cons cage l ih =>
    intro st st' hWF hnz h
    rw [preseedLoop_cons] at h
    cases hS : preseedStep n cage st with
    | none => rw [hS] at h; exact absurd h (by simp)
    | some st2 =>
      rw [hS] at h
      simp only [Option.bind] at h
      rcases preseedStep_spec n cage st st2 hS with h2 | ⟨r, c, ht1, ht2, h2⟩
      · exact ih st2 st' (h2 ▸ hWF) (h2 ▸ hnz) h
      · refine ih st2 st' (h2 ▸ WF_place hWF r c _) ?_ h
        rw [h2]
        by_cases heq : r = r0 ∧ c = c0
        · rw [heq.1, heq.2, getCell_place_self hWF hr hc]
          omega
        · rw [getCell_place_ne heq _ st]
          exact hnz

theorem preseed_poison (n : Nat) (pc : Cage) (r0 c0 : Nat)
    (hcells : pc.cells = [(r0, c0)]) (hr : r0 < n) (hc : c0 < n) :
    ∀ (l1 l2 : List Cage) (st st' : SState), WF n st →
      preseedLoop n (l1 ++ pc :: l2) st = some st' → getCell st'.grid r0 c0 ≠ 0 := by
  intro l1 l2 st st' hWF h
  rw [preseedLoop_append] at h
  cases hE : preseedLoop n l1 st with
  | none => rw [hE] at h; exact absurd h (by simp)
  | some st1 =>
    rw [hE] at h
    simp only [Option.bind] at h
    have hWF1 := preseedLoop_WF n l1 st st1 hWF hE
    rw [preseedLoop_cons, preseedStep_single n pc r0 c0 st1 hcells] at h
    by_cases h1 : (pc.target < 1 ∨ (n : Int) < pc.target)
    · rw [if_pos h1] at h; exact absurd h (by simp)
    · rw [if_neg h1] at h
      by_cases h2 : (getUsed st1.rowUsed r0 pc.target.toNat ||
          getUsed st1.colUsed c0 pc.target.toNat) = true
      · rw [if_pos h2] at h; exact absurd h (by simp)
      · rw [if_neg h2] at h
        simp only [Option.bind] at h
        refine preseedLoop_nonzero n hr hc l2 _ st' (WF_place hWF1 r0 c0 _) ?_ h
        rw [getCell_place_self hWF1 hr hc]
        omega

theorem solveKenKen_of_preseed_none (p : Puzzle)
    (h : preseedLoop p.size p.cages (initState p.size) = none) :
    solveKenKen p = SolveResult.noSolution := by
  unfold solveKenKen
  by_cases hn : p.size < 1
  · rw [if_pos hn]
  · rw [if_neg hn, h]

theorem preseed_bad_target (n : Nat) (cg : Cage) (r c : Nat)
    (hcells : cg.cells = [(r, c)])
    (hbad : cg.target < 1 ∨ (n : Int) < cg.target) :
    ∀ (l1 l2 : List Cage) (st : SState), preseedLoop n (l1 ++ cg :: l2) st = none := by
  intro l1 l2 st
  rw [preseedLoop_append]
  cases hE : preseedLoop n l1 st with
  | none => rfl
  | some st1 =>
    simp only [Option.bind]
    rw [preseedLoop_cons, preseedStep_single n cg r c st1 hcells, if_pos hbad]
    rfl

theorem preseed_conflict_row (n : Nat) (cgi cgj : Cage) (r ci cj : Nat)
    (hci : cgi.cells = [(r, ci)]) (hcj : cgj.cells = [(r, cj)])
    (ht : cgj.target = cgi.target) (hr : r < n) :
    ∀ (l1 l2 l3 : List Cage) (st : SState), WF n st →
      preseedLoop n (l1 ++ cgi :: (l2 ++ cgj :: l3)) st = none := by
  intro l1 l2 l3 st hWF
  rw [preseedLoop_append]
  cases hE : preseedLoop n l1 st with
  | none => rfl
  | some st1 =>
    simp only [Option.bind]
    have hWF1 := preseedLoop_WF n l1 st st1 hWF hE
    rw [preseedLoop_cons, preseedStep_single n cgi r ci st1 hci]
    by_cases h1 : (cgi.target < 1 ∨ (n : Int) < cgi.target)
    · rw [if_pos h1]; rfl
    · rw [if_neg h1]
      by_cases h2 : (getUsed st1.rowUsed r cgi.target.toNat ||
          getUsed st1.colUsed ci cgi.target.toNat) = true
      · rw [if_pos h2]; rfl
      · rw [if_neg h2]
        simp only [Option.bind]
        rw [preseedLoop_append]
        cases hE2 : preseedLoop n l2 (place r ci cgi.target.toNat st1) with
        | none => rfl
        | some st3 =>
          simp only [Option.bind]
          rw [preseedLoop_cons, preseedStep_single n cgj r cj st3 hcj]
          have hbadj : ¬(cgj.target < 1 ∨ (n : Int) < cgj.target) := by
            rw [ht]; exact h1
          rw [if_neg hbadj]
          push_neg at h1
          have hmark : getUsed (place r ci cgi.target.toNat st1).rowUsed r
              cgi.target.toNat = true := by
            unfold place getUsed setUsed
            apply getAt_setAt_self false st1.rowUsed true
            · rw [hWF1.2.2.1]; exact hr
            · rw [WF_rowUsed_length hWF1 hr]; omega
          have hmark3 : getUsed st3.rowUsed r cgj.target.toNat = true := by
            rw [ht]
            exact preseedLoop_rowUsed_mono n l2 _ st3 r _ hmark hE2
          rw [hmark3]
          simp

theorem preseed_conflict_col (n : Nat) (cgi cgj : Cage) (ri rj c : Nat)
    (hci : cgi.cells = [(ri, c)]) (hcj : cgj.cells = [(rj, c)])
    (ht : cgj.target = cgi.target) (hc : c < n) :
    ∀ (l1 l2 l3 : List Cage) (st : SState), WF n st →
      preseedLoop n (l1 ++ cgi :: (l2 ++ cgj :: l3)) st = none := by
  intro l1 l2 l3 st hWF
  rw [preseedLoop_append]
  cases hE : preseedLoop n l1 st with
  | none => rfl
  | some st1 =>
    simp only [Option.bind]
    have hWF1 := preseedLoop_WF n l1 st st1 hWF hE
    rw [preseedLoop_cons, preseedStep_single n cgi ri c st1 hci]
    by_cases h1 : (cgi.target < 1 ∨ (n : Int) < cgi.target)
    · rw [if_pos h1]; rfl
    · rw [if_neg h1]
      by_cases h2 : (getUsed st1.rowUsed ri cgi.target.toNat ||
          getUsed st1.colUsed c cgi.target.toNat) = true
      · rw [if_pos h2]; rfl
      · rw [if_neg h2]
        simp only [Option.bind]
        rw [preseedLoop_append]
        cases hE2 : preseedLoop n l2 (place ri c cgi.target.toNat st1) with
        | none => rfl
        | some st3 =>
          simp only [Option.bind]
          rw [preseedLoop_cons, preseedStep_single n cgj rj c st3 hcj]
          have hbadj : ¬(cgj.target < 1 ∨ (n : Int) < cgj.target) := by
            rw [ht]; exact h1
          rw [if_neg hbadj]
          push_neg at h1
          have hmark : getUsed (place ri c cgi.target.toNat st1).colUsed c
              cgi.target.toNat = true := by
            unfold place getUsed setUsed
            apply getAt_setAt_self false st1.colUsed true
            · rw [hWF1.2.2.2.2.1]; exact hc
            · rw [WF_colUsed_length hWF1 hc]; omega
          have hmark3 : getUsed st3.colUsed c cgj.target.toNat = true := by
            rw [ht]
            exact preseedLoop_colUsed_mono n l2 _ st3 c _ hmark hE2
          rw [hmark3]
          simp

/-- C5: every puzzle whose cages cover the board and that contains a
single-cell cage with operator subtraction or division returns no-solution:
the cell is pre-seeded, every completion check applies the two-cell formula
to the one-element value list (reading past its end) and never accepts, and
the search terminates within fuel n*n+1. -/
theorem c5_single_sub_div_cage_unsolvable (p : Puzzle) (pc : Cage) (r0 c0 : Nat)
    (hmem : pc ∈ p.cages) (hcells : pc.cells = [(r0, c0)])
    (hop : pc.op = Op.sub ∨ pc.op = Op.div)
    (hr : r0 < p.size) (hc : c0 < p.size)
    (hcov : ∀ r, r < p.size → ∀ c, c < p.size → (cageOf p.cages r c).isSome) :
    solveKenKen p = SolveResult.noSolution := by
  unfold solveKenKen
  have hn : ¬(p.size < 1) := by omega
  rw [if_neg hn]
  cases hE : preseedLoop p.size p.cages (initState p.size) with
  | none => rfl
  | some st =>
    dsimp only
    have hWF : WF p.size st :=
      preseedLoop_WF p.size p.cages (initState p.size) st (WF_initState p.size) hE
    obtain ⟨l1, l2, hdecomp⟩ := List.append_of_mem hmem
    have hnz : getCell st.grid r0 c0 ≠ 0 := by
      rw [hdecomp] at hE
      exact preseed_poison p.size pc r0 c0 hcells hr hc l1 l2 _ st (WF_initState p.size) hE
    have hsome := backtrack_some p.size (cageOf p.cages) p.cages
      (fun r c hr2 hc2 => hcov r hr2 c hc2) (p.size * p.size + 1) st hWF
      (by have := countZeros_le hWF; omega)
    cases hB : backtrack p.size (cageOf p.cages) p.cages (p.size * p.size + 1) st with
    | none => rw [hB] at hsome; exact absurd hsome (by simp)
    | some bs =>
      obtain ⟨b, st2⟩ := bs
      cases b with
      | true =>
        exact absurd hB
          (backtrack_netrue p.size (cageOf p.cages) p.cages pc r0 c0 hmem hcells hop
            (p.size * p.size + 1) st hnz st2)
      | false => rfl

/-- Witness for C5 at a concrete fully covered 2 by 2 puzzle whose
single-cell subtraction cage pre-seeds fine. -/
theorem c5_witness : solveKenKen pzSubSingle = SolveResult.noSolution :=
  c5_single_sub_div_cage_unsolvable pzSubSingle ⟨[(0, 0)], 1, Op.sub⟩ 0 0
    (by decide) rfl (Or.inl rfl) (by decide) (by decide) (by decide)

/-- C6: a single-cell cage with target outside 1..n, or two single-cell
cages in the same row (or column, with the row or column on the board) with
equal targets, makes pre-seeding return none, so solveKenKen reports
no-solution before any backtracking search. -/
theorem c6_preseed_rejects (p : Puzzle)
    (h : (∃ cg ∈ p.cages, ∃ r c : Nat, cg.cells = [(r, c)] ∧
            (cg.target < 1 ∨ (p.size : Int) < cg.target)) ∨
         (∃ l1 cgi l2 cgj l3, p.cages = l1 ++ cgi :: (l2 ++ cgj :: l3) ∧
            ∃ r ci cj : Nat, r < p.size ∧ cgi.cells = [(r, ci)] ∧
              cgj.cells = [(r, cj)] ∧ cgj.target = cgi.target) ∨
         (∃ l1 cgi l2 cgj l3, p.cages = l1 ++ cgi :: (l2 ++ cgj :: l3) ∧
            ∃ ri rj c : Nat, c < p.size ∧ cgi.cells = [(ri, c)] ∧
              cgj.cells = [(rj, c)] ∧ cgj.target = cgi.target)) :
    preseedLoop p.size p.cages (initState p.size) = none ∧
      solveKenKen p = SolveResult.noSolution := by
  have hpre : preseedLoop p.size p.cages (initState p.size) = none := by
    rcases h with ⟨cg, hmem, r, c, hcells, hbad⟩ |
      ⟨l1, cgi, l2, cgj, l3, hdec, r, ci, cj, hr, hci, hcj, ht⟩ |
      ⟨l1, cgi, l2, cgj, l3, hdec, ri, rj, c, hc, hci, hcj, ht⟩
    · obtain ⟨s, t, hdec⟩ := List.append_of_mem hmem
      rw [hdec]
      exact preseed_bad_target p.size cg r c hcells hbad s t (initState p.size)
    · rw [hdec]
      exact preseed_conflict_row p.size cgi cgj r ci cj hci hcj ht hr l1 l2 l3
        (initState p.size) (WF_initState p.size)
    · rw [hdec]
      exact preseed_conflict_col p.size cgi cgj ri rj c hci hcj ht hc l1 l2 l3
        (initState p.size) (WF_initState p.size)
  exact ⟨hpre, solveKenKen_of_preseed_none p hpre⟩

/-- Witness for C6 at a concrete 2 by 2 puzzle with single-cell target 5. -/
theorem c6_witness :
    preseedLoop 2 pzBadTarget.cages (initState 2) = none ∧
      solveKenKen pzBadTarget = SolveResult.noSolution :=
  c6_preseed_rejects pzBadTarget
    (Or.inl ⟨⟨[(0, 0)], 5, Op.eq⟩, by decide, 0, 0, rfl, by decide⟩)

/-- C1: refuted on the code (code bug): on pzIncomplete the solver returns
a grid that still contains an unassigned 0 cell, because the dead-end null
of selectNext is treated like the all-cells-assigned null and the partial
cage checks all pass. -/
theorem c1_incomplete_grid_returned :
    solveKenKen pzIncomplete = SolveResult.solved [[0, 1], [2, 0]] ∧
      getCell [[0, 1], [2, 0]] 0 0 = 0 := by decide

/-- C3: refuted on the code (code bug): from the pre-seeded state of
pzIncomplete, the scan does abort with no pick at the dead-end cell (0,0),
but backtrack then runs the completion check and declares the puzzle solved
although cell (0,0) is still unassigned. -/
theorem c3_dead_end_declared_solved :
    preseedLoop 2 pzIncomplete.cages (initState 2) = some stIncomplete ∧
    getCell stIncomplete.grid 0 0 = 0 ∧
    (selectNext 2 (cageOf pzIncomplete.cages) stIncomplete).1 = none ∧
    backtrack 2 (cageOf pzIncomplete.cages) pzIncomplete.cages 5 stIncomplete =
      some (true, stIncomplete) := by decide

/-- C2 counterexample: a puzzle with an uncaged cell that the driver
selects makes solveKenKen fault (the crash result) rather than terminate
with a grid or no-solution. -/
theorem c2_crashes_on_uncaged_cell : solveKenKen pzUncaged = SolveResult.crash := by
  decide

/-- C2 amended: the candidate generator does treat an uncaged cell as
unconstrained, but when the driver selects such a cell with a nonempty
candidate list, the recursive step calls the oracle through the missing
cell-to-cage entry and faults. -/
theorem c2_recursive_step_faults (n r c v : Nat) (vs : List Nat)
    (cof : Nat → Nat → Option Cage) (recur : SState → Option (Bool × SState))
    (st : SState) (h : cof r c = none) :
    tryLoop n (cof r c) r c recur (v :: vs) st = none := by
  rw [h]
  rfl

theorem c2_recursive_step_faults_witness :
    tryLoop 1 (cageOf [] 0 0) 0 0 (fun s => some (false, s)) [1] (initState 1) = none :=
  c2_recursive_step_faults 1 0 0 1 [] (cageOf []) (fun s => some (false, s))
    (initState 1) rfl

/-- C4 counterexample: a size-1 puzzle is not rejected: the guard tests
n < 1 only, and the solver returns the 1 by 1 grid [[1]]. -/
theorem c4_size_one_is_solved : solveKenKen pzOne = SolveResult.solved [[1]] := by
  decide

/-- C4 amended: the explicit size guard rejects only sizes below 1: a
size-0 puzzle yields no-solution without any search. -/
theorem c4_guard_rejects_only_size_zero (cages : List Cage) :
    solveKenKen ⟨0, cages⟩ = SolveResult.noSolution := rfl

/-- C9 counterexample: at a state whose probed cell already holds 1 (usage
tables in sync), getCandidates alters the state: the final undo writes 0
over the 1.  The claim quantifies over every solver state, so it fails. -/
theorem c9_probe_not_restored :
    (getCandidates 2 (cageOf []) 0 0 stProbe).2 ≠ stProbe := by decide

/-- C9 amended: whenever the probed cell is unassigned, which holds at
every call site of the solver, getCandidates leaves the grid and both usage
tables exactly equal to their values before the call. -/
theorem c9_generator_restores (n : Nat) (cof : Nat → Nat → Option Cage) (r c : Nat)
    (st : SState) (h : getCell st.grid r c = 0) :
    (getCandidates n cof r c st).2 = st :=
  getCandidates_state n cof r c st h

/-- Witness for C9 at a concrete fresh state. -/
theorem c9_generator_restores_witness :
    (getCandidates 2 (cageOf pzTwoRows.cages) 0 0 (initState 2)).2 = initState 2 :=
  c9_generator_restores 2 (cageOf pzTwoRows.cages) 0 0 (initState 2) (by decide)

/-- C10: two invocations of solveKenKen on the same puzzle return identical
results; the embedding is a pure function of the puzzle, mirroring the
source, whose search state is all constructed afresh inside one call. -/
theorem c10_deterministic (p q : Puzzle) (h : p = q) :
    solveKenKen p = solveKenKen q := by rw [h]

/-- Witness for C10 at a concrete solvable puzzle. -/
theorem c10_deterministic_witness :
    solveKenKen pzTwoRows = solveKenKen pzTwoRows :=
  c10_deterministic pzTwoRows pzTwoRows rfl

theorem foldl_add_eq (l : List Nat) : ∀ a : Nat, l.foldl (· + ·) a = a + l.sum := by
  induction l with
  | nil => intro a; simp
  | cons v t ih =>
    intro a
    simp only [List.foldl_cons, List.sum_cons]
    rw [ih]
    omega

theorem filter_ne_sum (l : List Nat) :
    (l.filter (fun v => !(v == 0))).sum = l.sum := by
  induction l with
  | nil => rfl
  | cons v t ih =>
    rw [List.filter_cons]
    by_cases hv : v = 0
    · rw [if_neg (by simp [hv]), ih, List.sum_cons, hv, Nat.zero_add]
    · rw [if_pos (by simp [hv]), List.sum_cons, List.sum_cons, ih]

theorem foldl_mul_eq (l : List Nat) :
    ∀ a : Nat, l.foldl (fun p v => if v == 0 then p else p * v) a =
      a * (l.filter (fun v => !(v == 0))).prod := by
  induction l with
  | nil => intro a; simp
  | cons v t ih =>
    intro a
    rw [List.foldl_cons, List.filter_cons]
    by_cases hv : v = 0
    · rw [if_neg (show ¬((!(v == 0)) = true) from by simp [hv]),
        if_pos (show ((v == 0) = true) from by simp [hv]), ih]
    · rw [if_pos (show ((!(v == 0)) = true) from by simp [hv]),
        if_neg (show ¬((v == 0) = true) from by simp [hv]),
        ih (a * v), List.prod_cons, Nat.mul_assoc]

theorem cageValidPartial_add_complete (n : Nat) (grid : List (List Nat)) (cage : Cage)
    (hop : cage.op = Op.add) (hu : unassignedCount grid cage = 0) :
    cageValidPartial n grid cage = (filledSum grid cage == cage.target) := by
  have hs : (((cellVals grid cage).foldl (· + ·) 0 : Nat) : Int) = filledSum grid cage := by
    unfold filledSum
    rw [foldl_add_eq, Nat.zero_add, filter_ne_sum]
  unfold unassignedCount at hu
  unfold cageValidPartial
  rw [hop]
  simp [hu, hs]

theorem cageValidPartial_add_incomplete (n : Nat) (grid : List (List Nat)) (cage : Cage)
    (hop : cage.op = Op.add) (hu : unassignedCount grid cage ≠ 0) :
    cageValidPartial n grid cage =
      (if cage.target ≤ filledSum grid cage then false
       else decide (filledSum grid cage + unassignedCount grid cage ≤ cage.target ∧
         cage.target ≤ filledSum grid cage + n * unassignedCount grid cage)) := by
  have hs : (((cellVals grid cage).foldl (· + ·) 0 : Nat) : Int) = filledSum grid cage := by
    unfold filledSum
    rw [foldl_add_eq, Nat.zero_add, filter_ne_sum]
  unfold unassignedCount at hu
  unfold cageValidPartial unassignedCount
  rw [hop]
  simp [hu, hs]

/-- C7: characterization of the addition oracle: with sum the total of the
filled cell values and u the count of zero cells, a complete cage is valid
exactly when sum equals the target; an incomplete cage is rejected whenever
the target is at most sum, and accepted exactly when the target lies in the
interval from sum + u to sum + n*u. -/
theorem c7_sum_oracle (n : Nat) (grid : List (List Nat)) (cage : Cage)
    (hop : cage.op = Op.add) :
    (unassignedCount grid cage = 0 →
      (cageValidPartial n grid cage = true ↔ filledSum grid cage = cage.target)) ∧
    (unassignedCount grid cage ≠ 0 →
      (cage.target ≤ filledSum grid cage → cageValidPartial n grid cage = false) ∧
      (cageValidPartial n grid cage = true ↔
        filledSum grid cage + unassignedCount grid cage ≤ cage.target ∧
        cage.target ≤ filledSum grid cage + n * unassignedCount grid cage)) := by
  constructor
  · intro hu
    rw [cageValidPartial_add_complete n grid cage hop hu]
    exact beq_iff_eq
  · intro hu
    rw [cageValidPartial_add_incomplete n grid cage hop hu]
    constructor
    · intro hle
      rw [if_pos hle]
    · by_cases hle : cage.target ≤ filledSum grid cage
      · rw [if_pos hle]
        simp only [Bool.false_eq_true, false_iff]
        intro hcontra
        have h1 : 1 ≤ unassignedCount grid cage := Nat.one_le_iff_ne_zero.mpr hu
        have := hcontra.1
        omega
      · rw [if_neg hle]
        rw [decide_eq_true_eq]

/-- Witness for C7 at a concrete half-filled addition cage. -/
theorem c7_sum_oracle_witness :
    (unassignedCount [[1, 0]] ⟨[(0, 0), (0, 1)], 3, Op.add⟩ = 0 →
      (cageValidPartial 2 [[1, 0]] ⟨[(0, 0), (0, 1)], 3, Op.add⟩ = true ↔
        filledSum [[1, 0]] ⟨[(0, 0), (0, 1)], 3, Op.add⟩ = (3 : Int))) ∧
    (unassignedCount [[1, 0]] ⟨[(0, 0), (0, 1)], 3, Op.add⟩ ≠ 0 →
      ((3 : Int) ≤ filledSum [[1, 0]] ⟨[(0, 0), (0, 1)], 3, Op.add⟩ →
        cageValidPartial 2 [[1, 0]] ⟨[(0, 0), (0, 1)], 3, Op.add⟩ = false) ∧
      (cageValidPartial 2 [[1, 0]] ⟨[(0, 0), (0, 1)], 3, Op.add⟩ = true ↔
        filledSum [[1, 0]] ⟨[(0, 0), (0, 1)], 3, Op.add⟩ +
          unassignedCount [[1, 0]] ⟨[(0, 0), (0, 1)], 3, Op.add⟩ ≤ (3 : Int) ∧
        (3 : Int) ≤ filledSum [[1, 0]] ⟨[(0, 0), (0, 1)], 3, Op.add⟩ +
          2 * unassignedCount [[1, 0]] ⟨[(0, 0), (0, 1)], 3, Op.add⟩)) :=
  c7_sum_oracle 2 [[1, 0]] ⟨[(0, 0), (0, 1)], 3, Op.add⟩ rfl

theorem cageValidPartial_mul_reject (n : Nat) (grid : List (List Nat)) (cage : Cage)
    (hop : cage.op = Op.mul)
    (hrej : cage.target < filledProd grid cage ∨
      cage.target % filledProd grid cage ≠ 0) :
    cageValidPartial n grid cage = false := by
  have hp : (((cellVals grid cage).foldl (fun p v => if v == 0 then p else p * v) 1 :
      Nat) : Int) = filledProd grid cage := by
    unfold filledProd
    rw [foldl_mul_eq, Nat.one_mul]
  unfold cageValidPartial
  rw [hop]
  dsimp only
  rw [hp]
  rw [if_pos]
  rcases hrej with h | h
  · exact Or.inl h
  · exact Or.inr (by simpa using h)

theorem cageValidPartial_mul_complete (n : Nat) (grid : List (List Nat)) (cage : Cage)
    (hop : cage.op = Op.mul)
    (hok : ¬(cage.target < filledProd grid cage ∨
      cage.target % filledProd grid cage ≠ 0))
    (hu : unassignedCount grid cage = 0) :
    cageValidPartial n grid cage = (filledProd grid cage == cage.target) := by
  have hp : (((cellVals grid cage).foldl (fun p v => if v == 0 then p else p * v) 1 :
      Nat) : Int) = filledProd grid cage := by
    unfold filledProd
    rw [foldl_mul_eq, Nat.one_mul]
  unfold unassignedCount at hu
  unfold cageValidPartial
  rw [hop]
  dsimp only
  rw [hp, hu]
  rw [if_neg (by simpa using hok)]
  simp

theorem cageValidPartial_mul_incomplete (n : Nat) (grid : List (List Nat)) (cage : Cage)
    (hop : cage.op = Op.mul)
    (hok : ¬(cage.target < filledProd grid cage ∨
      cage.target % filledProd grid cage ≠ 0))
    (hu : unassignedCount grid cage ≠ 0) :
    cageValidPartial n grid cage =
      decide (cage.target ≤
        filledProd grid cage * (n : Int) ^ unassignedCount grid cage) := by
  have hp : (((cellVals grid cage).foldl (fun p v => if v == 0 then p else p * v) 1 :
      Nat) : Int) = filledProd grid cage := by
    unfold filledProd
    rw [foldl_mul_eq, Nat.one_mul]
  have hcast : (((((cellVals grid cage).filter (fun v => !(v == 0))).prod *
      n ^ (cellVals grid cage).countP (fun v => v == 0) : Nat)) : Int) =
      filledProd grid cage * (n : Int) ^ unassignedCount grid cage := by
    unfold filledProd unassignedCount
    push_cast
    ring
  unfold unassignedCount at hu
  unfold cageValidPartial
  rw [hop]
  dsimp only
  rw [hp]
  rw [if_neg (by simpa using hok)]
  rw [if_neg (by simpa using hu)]
  rw [foldl_mul_eq, Nat.one_mul, hcast]

/-- C8: characterization of the multiplication oracle: with prod the
product of the non-zero filled values and u the count of zero cells, the
oracle rejects whenever prod exceeds the target or the target is not
divisible by prod; a complete cage is accepted exactly when prod equals the
target; an incomplete, not rejected cage is accepted exactly when
prod * n^u reaches the target. -/
theorem c8_prod_oracle (n : Nat) (grid : List (List Nat)) (cage : Cage)
    (hop : cage.op = Op.mul) :
    ((cage.target < filledProd grid cage ∨
        cage.target % filledProd grid cage ≠ 0) →
      cageValidPartial n grid cage = false) ∧
    (unassignedCount grid cage = 0 →
      (cageValidPartial n grid cage = true ↔ filledProd grid cage = cage.target)) ∧
    (unassignedCount grid cage ≠ 0 →
      ¬(cage.target < filledProd grid cage ∨
        cage.target % filledProd grid cage ≠ 0) →
      (cageValidPartial n grid cage = true ↔
        cage.target ≤ filledProd grid cage * (n : Int) ^ unassignedCount grid cage)) := by
  refine ⟨fun hrej => cageValidPartial_mul_reject n grid cage hop hrej, ?_, ?_⟩
  · intro hu
    by_cases hrej : (cage.target < filledProd grid cage ∨
        cage.target % filledProd grid cage ≠ 0)
    · rw [cageValidPartial_mul_reject n grid cage hop hrej]
      simp only [Bool.false_eq_true, false_iff]
      intro heq
      rcases hrej with h | h
      · rw [heq] at h
        exact absurd h (lt_irrefl _)
      · rw [← heq, Int.emod_self] at h
        exact h rfl
    · rw [cageValidPartial_mul_complete n grid cage hop hrej hu]
      exact beq_iff_eq
  · intro hu hok
    rw [cageValidPartial_mul_incomplete n grid cage hop hok hu]
    rw [decide_eq_true_eq]

/-- Witness for C8 at a concrete half-filled multiplication cage. -/
theorem c8_prod_oracle_witness :
    (((6 : Int) < filledProd [[2, 0]] ⟨[(0, 0), (0, 1)], 6, Op.mul⟩ ∨
        (6 : Int) % filledProd [[2, 0]] ⟨[(0, 0), (0, 1)], 6, Op.mul⟩ ≠ 0) →
      cageValidPartial 3 [[2, 0]] ⟨[(0, 0), (0, 1)], 6, Op.mul⟩ = false) ∧
    (unassignedCount [[2, 0]] ⟨[(0, 0), (0, 1)], 6, Op.mul⟩ = 0 →
      (cageValidPartial 3 [[2, 0]] ⟨[(0, 0), (0, 1)], 6, Op.mul⟩ = true ↔
        filledProd [[2, 0]] ⟨[(0, 0), (0, 1)], 6, Op.mul⟩ = (6 : Int))) ∧
    (unassignedCount [[2, 0]] ⟨[(0, 0), (0, 1)], 6, Op.mul⟩ ≠ 0 →
      ¬((6 : Int) < filledProd [[2, 0]] ⟨[(0, 0), (0, 1)], 6, Op.mul⟩ ∨
        (6 : Int) % filledProd [[2, 0]] ⟨[(0, 0), (0, 1)], 6, Op.mul⟩ ≠ 0) →
      (cageValidPartial 3 [[2, 0]] ⟨[(0, 0), (0, 1)], 6, Op.mul⟩ = true ↔
        (6 : Int) ≤ filledProd [[2, 0]] ⟨[(0, 0), (0, 1)], 6, Op.mul⟩ *
          (3 : Int) ^ unassignedCount [[2, 0]] ⟨[(0, 0), (0, 1)], 6, Op.mul⟩)) :=
  c8_prod_oracle 3 [[2, 0]] ⟨[(0, 0), (0, 1)], 6, Op.mul⟩ rfl

end KenKen
